import Mathlib

/-
Verification development for the flow synthesis engine of a synthetic
network-traffic generator (ft-generator).

The definitions below are a shallow embedding of the C++ sources:
  * addressgenerators.cpp   (Lehmer PRNG driven address generators)
  * packetsizegeneratorslow.cpp  (packet size distributor)
  * flow.cpp  (flow planner: encapsulation choice, ICMP heuristic,
               direction / size / timestamp planning)

Machine integers (uint64_t / uint32_t) are modelled as Nat (the algorithms
stay far below the wrap-around in all reachable states relevant to the
claims); doubles are modelled as exact rationals; the process-wide
RandomGenerator and the local std::mt19937 engines are modelled as explicit
entropy streams threaded through the functions.
-/

/-- Entropy stream modelling the shared seeded RandomGenerator instance:
an infinite sequence of raw natural draws plus a cursor.  A fixed seed
determines the whole stream, so one `Rng` value stands for one seeded
generator state. -/
structure Rng where
  vals : Nat → Nat
  idx : Nat

/-- Consume one raw draw from the stream. -/
def Rng.next (g : Rng) : Nat × Rng :=
  (g.vals g.idx, { g with idx := g.idx + 1 })

/-- Map a raw draw to the unit interval `[0, 1)` (model of the engine-to-real
mapping done by std::uniform_real_distribution). -/
def unitFrac (n : Nat) : ℚ :=
  ((n % 1000000 : Nat) : ℚ) / 1000000

/-- RandomGenerator::RandomDouble(lo, hi): a real draw in `[lo, hi)`. -/
def randomDouble (g : Rng) (lo hi : ℚ) : ℚ × Rng :=
  let (n, g1) := g.next
  (lo + (hi - lo) * unitFrac n, g1)

/-- RandomGenerator::RandomUInt(lo, hi): an integer draw in `[lo, hi]`
(inclusive on both ends, as std::uniform_int_distribution). -/
def randomUInt (g : Rng) (lo hi : Nat) : Nat × Rng :=
  let (n, g1) := g.next
  (lo + n % (hi - lo + 1), g1)

theorem unitFrac_nonneg (n : Nat) : 0 ≤ unitFrac n := by
  unfold unitFrac
  positivity

theorem unitFrac_lt_one (n : Nat) : unitFrac n < 1 := by
  unfold unitFrac
  rw [div_lt_one (by norm_num)]
  exact_mod_cast Nat.mod_lt n (by norm_num)

theorem randomUInt_mem (g : Rng) (lo hi : Nat) (h : lo ≤ hi) :
    lo ≤ (randomUInt g lo hi).1 ∧ (randomUInt g lo hi).1 ≤ hi := by
  unfold randomUInt Rng.next
  constructor
  · exact Nat.le_add_right lo _
  · have hm : g.vals g.idx % (hi - lo + 1) < hi - lo + 1 :=
      Nat.mod_lt _ (Nat.succ_pos _)
    have : g.vals g.idx % (hi - lo + 1) ≤ hi - lo := Nat.lt_succ_iff.mp hm
    calc lo + g.vals g.idx % (hi - lo + 1) ≤ lo + (hi - lo) :=
          Nat.add_le_add_left this lo
      _ = hi := Nat.add_sub_cancel' h

/- ===================== Address generators (addressgenerators.cpp) ====== -/

/-- One step of the Lehmer recurrence used by the address generators:
`x * 48271 % 0x7fffffff`. -/
def lehmerNext (x : Nat) : Nat := x * 48271 % 0x7fffffff

/-- The state of AddressGenerators: `_state`, `_seedState`, `_capacity`. -/
structure AGState where
  state : Nat
  seedState : Nat
  capacity : Nat
deriving DecidableEq, Repr

/-- Error raised by the AddressGenerators constructor. -/
inductive AGError where
  | invalidSeed
deriving DecidableEq, Repr

/-- AddressGenerators::NextSeed: advance `_seedState` by one Lehmer step,
reset `_state` to it and restart the capacity counter. -/
def agNextSeed (s : AGState) : AGState :=
  let seedState1 := lehmerNext s.seedState
  { state := seedState1, seedState := seedState1, capacity := 0x7fffffff - 1 }

/-- AddressGenerators::AddressGenerators(seed): reject seeds outside
`[1, 2^31 - 2]`, otherwise store the seed and call NextSeed once. -/
def AddressGeneratorsInit (seed : Nat) : Except AGError AGState :=
  if seed = 0 ∨ 0x7fffffff ≤ seed then .error .invalidSeed
  else .ok (agNextSeed { state := 0, seedState := seed, capacity := 0 })

/-- AddressGenerators::NextValue: reseed when the capacity is exhausted,
decrement the capacity, advance `_state` by one Lehmer step and return it. -/
def agNextValue (s : AGState) : Nat × AGState :=
  let s1 := if s.capacity = 0 then agNextSeed s else s
  let s2 := { s1 with capacity := s1.capacity - 1 }
  let st := lehmerNext s2.state
  (st, { s2 with state := st })

/-- Extract the byte `(v >> shift) & 0xFF` of a 32-bit value. -/
def byteOf (v shift : Nat) : Nat := v / 2 ^ shift % 256

/-- AddressGenerators::GenerateIPv4: one NextValue draw, emitted as the four
bytes of the value in big-endian order. -/
def GenerateIPv4 (s : AGState) : List Nat × AGState :=
  let (v, s1) := agNextValue s
  ([byteOf v 24, byteOf v 16, byteOf v 8, byteOf v 0], s1)

/- ===================== Interval data model ============================= -/

/-- IntervalInfo: an interval `[from, to]` with a probability weight
(fields `_from`, `_to`, `_probability` in the source). -/
structure IntervalInfo where
  from_ : Nat
  to_ : Nat
  probability : ℚ
deriving DecidableEq, Repr

/-- Membership in the union of the distribution's intervals. -/
def inUnion (intervals : List IntervalInfo) (v : Nat) : Prop :=
  ∃ i ∈ intervals, i.from_ ≤ v ∧ v ≤ i.to_

instance (intervals : List IntervalInfo) (v : Nat) :
    Decidable (inUnion intervals v) := by
  unfold inUnion
  exact inferInstance

/- ============== Packet size distributor (packetsizegeneratorslow.cpp) == -/

/-- SumProbabilities: accumulate the probability weights of a list of
intervals (std::accumulate with a running sum). -/
def SumProbabilities (intervals : List IntervalInfo) : ℚ :=
  intervals.foldl (fun sum inter => sum + inter.probability) 0

/-- Straight recursive sum of the probability weights, used to reason about
SumProbabilities. -/
def probTotal : List IntervalInfo → ℚ
  | [] => 0
  | inter :: rest => inter.probability + probTotal rest

/-- The interval-walking loop body of GenerateRandomValue: accumulate the
probabilities, and at the first interval whose running sum covers `genVal`
draw a uniform integer inside the interval; if no interval covers the draw
the value stays 0 and no integer draw is consumed. -/
def grvLoop : List IntervalInfo → ℚ → ℚ → Rng → Nat × Rng
  | [], _, _, g => (0, g)
  | inter :: rest, genVal, probSum, g =>
    let probSum1 := probSum + inter.probability
    if genVal ≤ probSum1 then randomUInt g inter.from_ inter.to_
    else grvLoop rest genVal probSum1 g

/-- GenerateRandomValue(intervals, intervalProbSum): draw a real in
`[0, intervalProbSum)` and pick a value from the first interval whose
cumulative probability covers it. -/
def GenerateRandomValue (intervals : List IntervalInfo) (intervalProbSum : ℚ)
    (g : Rng) : Nat × Rng :=
  let (genVal, g1) := randomDouble g 0 intervalProbSum
  grvLoop intervals genVal 0 g1

/-- The absolute difference used throughout Generate:
`a > b ? a - b : b - a`. -/
def absDiff (a b : Nat) : Nat := if a > b then a - b else b - a

/-- The interval-biasing step of one refinement attempt of
PacketSizeGeneratorSlow::Generate: when the sum is below the target band,
zero the probability of intervals whose midpoint `_from / 2 + _to / 2` is
below the current average; when it is above the band, zero those whose
midpoint is above the average. -/
def biasIntervals (intervals : List IntervalInfo)
    (valuesSum tMin tMax avg : Nat) : List IntervalInfo :=
  if valuesSum < tMin then
    intervals.map fun inter =>
      if inter.from_ / 2 + inter.to_ / 2 < avg then
        { inter with probability := 0 }
      else inter
  else if tMax < valuesSum then
    intervals.map fun inter =>
      if avg < inter.from_ / 2 + inter.to_ / 2 then
        { inter with probability := 0 }
      else inter
  else intervals

/-- The initial fill of Generate: draw `n` values from the distribution. -/
def fillValues : Nat → List IntervalInfo → ℚ → Rng → List Nat × Rng
  | 0, _, _, g => ([], g)
  | n + 1, intervals, ps, g =>
    let (v, g1) := GenerateRandomValue intervals ps g
    let (rest, g2) := fillValues n intervals ps g1
    (v :: rest, g2)

/-- Result state of the refinement phase of Generate: the working value
vector, its sum, the best-observed value vector and its difference from the
desired sum, and the advanced entropy stream. -/
structure GenResult where
  values : List Nat
  sum : Nat
  best : List Nat
  bestDiff : Nat
  rng : Rng

/-- The position sweep inside one refinement attempt: replace each value by
a fresh draw under the biased distribution, update the running sum, break
early when the sum enters the target band, and track the best-observed
vector after each non-breaking replacement. -/
def sweepLoop (intervals : List IntervalInfo) (ps : ℚ)
    (tMin tMax desiredBytes : Nat) :
    List Nat → List Nat → Nat → List Nat → Nat → Rng → GenResult
  | prefx, [], valuesSum, best, bestDiff, g =>
    ⟨prefx, valuesSum, best, bestDiff, g⟩
  | prefx, v :: rest, valuesSum, best, bestDiff, g =>
    let (nv, g1) := GenerateRandomValue intervals ps g
    let sum1 := valuesSum - v + nv
    let cur := prefx ++ nv :: rest
    if tMin ≤ sum1 ∧ sum1 ≤ tMax then ⟨cur, sum1, best, bestDiff, g1⟩
    else
      let diff := absDiff sum1 desiredBytes
      if diff < bestDiff then
        sweepLoop intervals ps tMin tMax desiredBytes
          (prefx ++ [nv]) rest sum1 cur diff g1
      else
        sweepLoop intervals ps tMin tMax desiredBytes
          (prefx ++ [nv]) rest sum1 best bestDiff g1

/-- The refinement loop of Generate (up to 2000 attempts): while the sum is
outside the target band, bias the intervals around the current average,
sweep all positions, and refresh the best-observed vector. -/
def genLoop (intervals : List IntervalInfo)
    (desiredPkts desiredBytes tMin tMax : Nat) :
    Nat → List Nat → Nat → List Nat → Nat → Rng → GenResult
  | 0, values, valuesSum, best, bestDiff, g =>
    ⟨values, valuesSum, best, bestDiff, g⟩
  | fuel + 1, values, valuesSum, best, bestDiff, g =>
    if valuesSum < tMin ∨ tMax < valuesSum then
      let avg := valuesSum / desiredPkts
      let biased := biasIntervals intervals valuesSum tMin tMax avg
      let ps := SumProbabilities biased
      let r := sweepLoop biased ps tMin tMax desiredBytes
        [] values valuesSum best bestDiff g
      let diff := absDiff r.sum desiredBytes
      let best2 := if diff < r.bestDiff then r.values else r.best
      let bestDiff2 := if diff < r.bestDiff then diff else r.bestDiff
      genLoop intervals desiredPkts desiredBytes tMin tMax
        fuel r.values r.sum best2 bestDiff2 r.rng
    else ⟨values, valuesSum, best, bestDiff, g⟩

/-- std::vector::resize(n): keep the first `n` elements and pad with
value-initialized (zero) elements. -/
def resizeValues (l : List Nat) (n : Nat) : List Nat :=
  l.take n ++ List.replicate (n - l.length) 0

/-- Models std::shuffle driven by the default-constructed engine: a
permutation of the list determined by the selector `sel` (the concrete
permutation std::shuffle produces from the engine is implementation
defined, so it is kept as a parameter). -/
def shuffleGo : Nat → (Nat → Nat) → List Nat → List Nat
  | 0, _, l => l
  | n + 1, sel, l =>
    match l with
    | [] => []
    | x :: xs =>
      let j := sel n % (x :: xs).length
      (x :: xs).get ⟨j, Nat.mod_lt _ (Nat.succ_pos xs.length)⟩ ::
        shuffleGo n sel ((x :: xs).eraseIdx j)

/-- Entry point of the shuffle model. -/
def shuffleSel (sel : Nat → Nat) (l : List Nat) : List Nat :=
  shuffleGo l.length sel l

/-- The main (N at least 2, B at least 1) path of
PacketSizeGeneratorSlow::Generate up to and including the refinement loop:
initial fill, target band computation, best-difference tracking. -/
def GenerateCore (intervals : List IntervalInfo)
    (desiredPkts desiredBytes : Nat) (g : Rng) : GenResult :=
  let ps := SumProbabilities intervals
  let (values, g1) := fillValues desiredPkts intervals ps g
  let valuesSum := values.sum
  let maxDiff := max (desiredBytes / 100) 50
  let tMin := if maxDiff < desiredBytes then desiredBytes - maxDiff else 0
  let tMax := desiredBytes + maxDiff
  let bestDiff0 := absDiff valuesSum desiredBytes
  genLoop intervals desiredPkts desiredBytes tMin tMax
    2000 values valuesSum values bestDiff0 g1

/-- PacketSizeGeneratorSlow::Generate(desiredPkts, desiredBytes): resize the
pool, return early for zero packets or bytes and for the single-packet case,
otherwise run the refinement phase; fall back to a pool of
`desiredBytes / desiredBytes` entries when the best relative difference
exceeds 0.2, and otherwise install the shuffled best vector. -/
def GenerateFull (prior : List Nat) (intervals : List IntervalInfo)
    (desiredPkts desiredBytes : Nat) (g : Rng) (sel : Nat → Nat) :
    List Nat × Rng :=
  let resized := resizeValues prior desiredPkts
  if desiredPkts = 0 ∨ desiredBytes = 0 then (resized, g)
  else if desiredPkts = 1 then (resized.set 0 desiredBytes, g)
  else
    let r := GenerateCore intervals desiredPkts desiredBytes g
    if (1 / 5 : ℚ) < (r.bestDiff : ℚ) / (desiredBytes : ℚ) then
      (List.replicate r.values.length (desiredBytes / desiredBytes), r.rng)
    else (shuffleSel sel r.best, r.rng)

/-- The persistent state of a PacketSizeGeneratorSlow instance. -/
structure PSGState where
  intervals : List IntervalInfo
  numPkts : Nat
  numBytes : Nat
  assignedPkts : Nat
  assignedBytes : Nat
  values : List Nat
deriving DecidableEq, Repr

/-- PacketSizeGeneratorSlow::PlanRemaining: regenerate the pool for the
packets and bytes not yet reserved (clamped at zero). -/
def PlanRemaining (st : PSGState) (g : Rng) (sel : Nat → Nat) :
    PSGState × Rng :=
  let remPkts := if st.assignedPkts ≤ st.numPkts
    then st.numPkts - st.assignedPkts else 0
  let remBytes := if st.assignedBytes ≤ st.numBytes
    then st.numBytes - st.assignedBytes else 0
  let (vals, g1) := GenerateFull st.values st.intervals remPkts remBytes g sel
  ({ st with values := vals }, g1)

/-- The closest-index scan of GetValueExact over the index window
`[start, fin)`: start from index 0 with difference `value` and keep the
first index realizing a strictly smaller difference. -/
def scanClosest (vals : List Nat) (value start fin : Nat) : Nat × Nat :=
  (List.range' start (fin - start)).foldl
    (fun acc i =>
      let diff := absDiff (vals.getD i 0) value
      if diff < acc.2 then (i, diff) else acc)
    (0, value)

/-- PacketSizeGeneratorSlow::GetValueExact(value): on an empty pool only
advance the budget counters; otherwise pick a window of up to 1000 slots
(random offset when more remain), remove the value closest to `value` by a
swap with the last element and a pop, and advance the budget counters by 1
packet and `value` bytes. -/
def GetValueExact (st : PSGState) (value : Nat) (g : Rng) :
    PSGState × Rng :=
  if st.values.length = 0 then
    ({ st with
        assignedPkts := st.assignedPkts + 1,
        assignedBytes := st.assignedBytes + value }, g)
  else
    let (start, fin, g1) :=
      if st.values.length ≤ 1000 then (0, st.values.length, g)
      else
        let (s, g2) := randomUInt g 0 (st.values.length - 1000)
        (s, s + 1000, g2)
    let closest := (scanClosest st.values value start fin).1
    let newVals := (st.values.set closest (st.values.getLast?.getD 0)).dropLast
    ({ st with
        values := newVals,
        assignedPkts := st.assignedPkts + 1,
        assignedBytes := st.assignedBytes + value }, g1)

/-- PacketSizeGeneratorSlow::GetValue: pop the tail element, or draw fresh
from the unbiased distribution when the pool is empty; advance the budget
counters by 1 packet and the returned value. -/
def GetValue (st : PSGState) (g : Rng) : Nat × PSGState × Rng :=
  let (value, vals, g1) :=
    match st.values.getLast? with
    | some v => (v, st.values.dropLast, g)
    | none =>
      let (v, g2) :=
        GenerateRandomValue st.intervals (SumProbabilities st.intervals) g
      (v, st.values, g2)
  (value,
    { st with
        values := vals,
        assignedPkts := st.assignedPkts + 1,
        assignedBytes := st.assignedBytes + value }, g1)

/- ===================== Claim C2 ======================================== -/

/-- Claim C2, counterexample: constructed with seed 1, the first
GenerateIPv4 call does not return the big-endian bytes of 48271
(0.0.188.143).  The constructor itself already advances the Lehmer state
once (NextSeed), and NextValue advances it again before returning, so the
first emitted value is 48271 * 48271 mod (2^31 - 1), not 48271. -/
theorem C2_counterexample :
    (AddressGeneratorsInit 1).toOption.map (fun s => (GenerateIPv4 s).1) ≠
      some [0, 0, 188, 143] := by
  decide

/-- Claim C2, amended: with seed 0 the constructor fails with InvalidSeed;
with seed 1 the first GenerateIPv4 call returns the big-endian encoding of
((1 * 48271) * 48271) mod (2^31 - 1) = 182605794, i.e. the bytes
10.226.87.226. -/
theorem C2_amended :
    AddressGeneratorsInit 0 = .error .invalidSeed ∧
    (AddressGeneratorsInit 1).toOption.map (fun s => (GenerateIPv4 s).1) =
      some [10, 226, 87, 226] ∧
    lehmerNext (lehmerNext 1) = 182605794 := by
  refine ⟨rfl, ?_, by decide⟩
  decide

/- ===================== ICMP layer selection (flow.cpp) ================= -/

/-- The two ICMP packet generation strategies the heuristic chooses from
(IcmpRandom / Icmpv6Random versus IcmpEcho / Icmpv6Echo). -/
inductive IcmpKind where
  | random
  | echo
deriving DecidableEq, Repr

/-- Flow::MakeIcmpLayer: the selection heuristic, parameterized by the
structural unreachable-packet size of the address family
(ICMP_UNREACH_PKT_SIZE resp. ICMPV6_UNREACH_PKT_SIZE).  The forward and
reverse packet and byte counts come from the profile; the ratio and
bytes-per-packet values default to 1.0 and 0 when the flow has no packets.
The packet and byte counts are modelled per the spec as exact numbers and
`bytesPerPkt` as an exact quotient. -/
def MakeIcmpLayer (fwdPackets revPackets fwdBytes revBytes : Nat)
    (unreachPktSize : ℚ) : IcmpKind :=
  let fwdRevRatioDiff : ℚ :=
    if 0 < fwdPackets + revPackets then
      1 - ((min fwdPackets revPackets : Nat) : ℚ) /
        ((max fwdPackets revPackets : Nat) : ℚ)
    else 1
  let bytesPerPkt : ℚ :=
    if 0 < fwdPackets + revPackets then
      ((fwdBytes + revBytes : Nat) : ℚ) / ((fwdPackets + revPackets : Nat) : ℚ)
    else 0
  if (fwdPackets ≤ 3 ∨ revPackets ≤ 3) ∧
      bytesPerPkt ≤ 11 / 10 * unreachPktSize then .random
  else if fwdRevRatioDiff ≤ 1 / 5 then .echo
  else if bytesPerPkt ≤ 11 / 10 * unreachPktSize then .random
  else .echo

/-- The selection condition exactly as the claim words it: IcmpRandom is
picked when (Pf <= 3 or Pr <= 3) and bpp <= 1.10 * S, or when
ratioDiff > 0.2 and bpp <= 1.10 * S, with ratioDiff = 1 - min/max and
bpp = (Bf+Br)/(Pf+Pr); with rational division both formulas take the
claimed default values (1.0 and 0) when Pf = Pr = 0. -/
def icmpClaimRandomCond (pf pr bf br : Nat) (s : ℚ) : Prop :=
  let ratioDiff : ℚ := 1 - ((min pf pr : Nat) : ℚ) / ((max pf pr : Nat) : ℚ)
  let bpp : ℚ := ((bf + br : Nat) : ℚ) / ((pf + pr : Nat) : ℚ)
  ((pf ≤ 3 ∨ pr ≤ 3) ∧ bpp ≤ 11 / 10 * s) ∨
    (1 / 5 < ratioDiff ∧ bpp ≤ 11 / 10 * s)

/- ===================== Claim C6 ======================================== -/

/-- Claim C6: the planner selects the random (unreachable-style) ICMP layer
exactly when (Pf <= 3 or Pr <= 3) and bpp <= 1.10 * S_unreach, or when
ratioDiff > 0.2 and bpp <= 1.10 * S_unreach; otherwise it selects the echo
layer.  Stated for every structural size, so it covers the ICMP and the
ICMPv6 instantiations of the identical code branches. -/
theorem C6_icmp_selection (pf pr bf br : Nat) (s : ℚ) :
    (MakeIcmpLayer pf pr bf br s = .random ↔ icmpClaimRandomCond pf pr bf br s) ∧
    (MakeIcmpLayer pf pr bf br s = .echo ↔ ¬ icmpClaimRandomCond pf pr bf br s) := by
  unfold MakeIcmpLayer icmpClaimRandomCond
  by_cases h : 0 < pf + pr
  · simp only [if_pos h]
    split_ifs with h1 h2 h3
    · exact ⟨iff_of_true rfl (Or.inl h1),
        iff_of_false (by simp) (fun hn => hn (Or.inl h1))⟩
    · have hn : ¬(((pf ≤ 3 ∨ pr ≤ 3) ∧
          ((bf + br : Nat) : ℚ) / ((pf + pr : Nat) : ℚ) ≤ 11 / 10 * s) ∨
          (1 / 5 < 1 - ((min pf pr : Nat) : ℚ) / ((max pf pr : Nat) : ℚ) ∧
            ((bf + br : Nat) : ℚ) / ((pf + pr : Nat) : ℚ) ≤ 11 / 10 * s)) := by
        rintro (hc | hc)
        · exact h1 hc
        · exact absurd hc.1 (not_lt.mpr h2)
      exact ⟨iff_of_false (by simp) hn, iff_of_true rfl hn⟩
    · exact ⟨iff_of_true rfl (Or.inr ⟨not_le.mp h2, h3⟩),
        iff_of_false (by simp) (fun hn => hn (Or.inr ⟨not_le.mp h2, h3⟩))⟩
    · have hn : ¬(((pf ≤ 3 ∨ pr ≤ 3) ∧
          ((bf + br : Nat) : ℚ) / ((pf + pr : Nat) : ℚ) ≤ 11 / 10 * s) ∨
          (1 / 5 < 1 - ((min pf pr : Nat) : ℚ) / ((max pf pr : Nat) : ℚ) ∧
            ((bf + br : Nat) : ℚ) / ((pf + pr : Nat) : ℚ) ≤ 11 / 10 * s)) := by
        rintro (hc | hc) <;> exact h3 hc.2
      exact ⟨iff_of_false (by simp) hn, iff_of_true rfl hn⟩
  · have hz : pf + pr = 0 := Nat.eq_zero_of_not_pos h
    have hpf : pf = 0 := Nat.eq_zero_of_add_eq_zero_right hz
    have hpr : pr = 0 := Nat.eq_zero_of_add_eq_zero_left hz
    subst hpf hpr
    norm_num
    split_ifs with h1 <;> simp_all

/- ===================== Claim C5 ======================================== -/

/-- Spec-side wording of the low-sum biasing: zero the probability of
intervals whose midpoint lies below the current average. -/
def specZeroBelowMid (intervals : List IntervalInfo) (avg : Nat) :
    List IntervalInfo :=
  intervals.map fun inter =>
    if inter.from_ / 2 + inter.to_ / 2 < avg then
      { inter with probability := 0 }
    else inter

/-- Spec-side wording of the high-sum biasing: zero the probability of
intervals whose midpoint lies above the current average. -/
def specZeroAboveMid (intervals : List IntervalInfo) (avg : Nat) :
    List IntervalInfo :=
  intervals.map fun inter =>
    if avg < inter.from_ / 2 + inter.to_ / 2 then
      { inter with probability := 0 }
    else inter

/-- Claim C5: in every refinement attempt of the packet size distributor,
when the sum is below targetMin the intervals with midpoint below the
average get probability zero, and when the sum is above targetMax the
intervals with midpoint above the average get probability zero; the second
conjunct shows on a concrete input that the two branches really are
mirrored and not identical. -/
theorem C5_bias_mirrored :
    (∀ (intervals : List IntervalInfo) (valuesSum tMin tMax avg : Nat),
      tMin ≤ tMax →
      (valuesSum < tMin →
        biasIntervals intervals valuesSum tMin tMax avg =
          specZeroBelowMid intervals avg) ∧
      (tMax < valuesSum →
        biasIntervals intervals valuesSum tMin tMax avg =
          specZeroAboveMid intervals avg)) ∧
    biasIntervals [⟨0, 2, 1⟩, ⟨10, 20, 1⟩] 0 1 2 5 ≠
      biasIntervals [⟨0, 2, 1⟩, ⟨10, 20, 1⟩] 3 1 2 5 := by
  constructor
  · intro intervals valuesSum tMin tMax avg hband
    constructor
    · intro hlt
      unfold biasIntervals specZeroBelowMid
      rw [if_pos hlt]
    · intro hgt
      have hnot : ¬ valuesSum < tMin := by omega
      unfold biasIntervals specZeroAboveMid
      rw [if_neg hnot, if_pos hgt]
  · decide

/-- Witness for C5 at concrete inputs: a band `[1, 2]`, a sum of 0 below it
and a sum of 3 above it, with the average 5. -/
theorem C5_bias_mirrored_witness :
    biasIntervals [⟨0, 2, 1⟩, ⟨10, 20, 1⟩] 0 1 2 5 =
      specZeroBelowMid [⟨0, 2, 1⟩, ⟨10, 20, 1⟩] 5 ∧
    biasIntervals [⟨0, 2, 1⟩, ⟨10, 20, 1⟩] 3 1 2 5 =
      specZeroAboveMid [⟨0, 2, 1⟩, ⟨10, 20, 1⟩] 5 :=
  ⟨(C5_bias_mirrored.1 [⟨0, 2, 1⟩, ⟨10, 20, 1⟩] 0 1 2 5 (by decide)).1 (by decide),
   (C5_bias_mirrored.1 [⟨0, 2, 1⟩, ⟨10, 20, 1⟩] 3 1 2 5 (by decide)).2 (by decide)⟩

/- ===================== Claim C10 ======================================= -/

/-- Claim C10: every GetValueExact call advances the budget counters by one
packet and by the caller-supplied value (never by a pool element), and on an
empty pool the state changes in nothing but the two counters and the
entropy stream is left untouched. -/
theorem C10_get_value_exact_frame (st : PSGState) (value : Nat) (g : Rng) :
    (GetValueExact st value g).1.assignedPkts = st.assignedPkts + 1 ∧
    (GetValueExact st value g).1.assignedBytes = st.assignedBytes + value ∧
    (st.values = [] →
      (GetValueExact st value g).1 =
        { st with
            assignedPkts := st.assignedPkts + 1,
            assignedBytes := st.assignedBytes + value } ∧
      (GetValueExact st value g).2 = g) := by
  unfold GetValueExact
  by_cases h : st.values.length = 0
  · rw [if_pos h]
    exact ⟨rfl, rfl, fun _ => ⟨rfl, rfl⟩⟩
  · rw [if_neg h]
    have hne : st.values ≠ [] := fun he => h (by simp [he])
    by_cases h2 : st.values.length ≤ 1000
    · rw [if_pos h2]
      exact ⟨rfl, rfl, fun hv => absurd hv hne⟩
    · rw [if_neg h2]
      exact ⟨rfl, rfl, fun hv => absurd hv hne⟩

/-- Witness for C10: a concrete distributor state with an empty pool, value
7; the pool stays empty, nothing but the counters changes, and the stream is
untouched. -/
theorem C10_get_value_exact_frame_witness :
    (GetValueExact ⟨[⟨64, 79, 1⟩], 5, 500, 0, 0, []⟩ 7 ⟨fun _ => 0, 0⟩).1.assignedPkts = 0 + 1 ∧
    (GetValueExact ⟨[⟨64, 79, 1⟩], 5, 500, 0, 0, []⟩ 7 ⟨fun _ => 0, 0⟩).1.assignedBytes = 0 + 7 ∧
    (GetValueExact ⟨[⟨64, 79, 1⟩], 5, 500, 0, 0, []⟩ 7 ⟨fun _ => 0, 0⟩).1 =
      ⟨[⟨64, 79, 1⟩], 5, 500, 0 + 1, 0 + 7, []⟩ ∧
    (GetValueExact ⟨[⟨64, 79, 1⟩], 5, 500, 0, 0, []⟩ 7 ⟨fun _ => 0, 0⟩).2 =
      ⟨fun _ => 0, 0⟩ := by
  have h := C10_get_value_exact_frame ⟨[⟨64, 79, 1⟩], 5, 500, 0, 0, []⟩ 7 ⟨fun _ => 0, 0⟩
  exact ⟨h.1, h.2.1, (h.2.2 rfl).1, (h.2.2 rfl).2⟩

/- ===================== Claim C4 ======================================== -/

/-- Claim C4, counterexample: PlanRemaining with 2 remaining packets and 0
remaining bytes leaves a pool of two zero-valued entries, not an empty
pool: the resize to `desiredPkts` elements happens before the early return
for `desiredBytes = 0`. -/
theorem C4_counterexample :
    (PlanRemaining ⟨[⟨64, 79, 1⟩], 2, 0, 0, 0, []⟩ ⟨fun _ => 0, 0⟩
        (fun _ => 0)).1.values = [0, 0] ∧
    ([0, 0] : List Nat) ≠ [] := by
  exact ⟨rfl, by decide⟩

/-- Claim C4, amended: with N = 0 the resulting pool is empty, but with
B = 0 and N > 0 the pool is the resize of the previous pool to N entries
(zero-padded), not the empty pool. -/
theorem C4_amended (prior : List Nat) (intervals : List IntervalInfo)
    (desiredPkts desiredBytes : Nat) (g : Rng) (sel : Nat → Nat) :
    (desiredPkts = 0 →
      (GenerateFull prior intervals desiredPkts desiredBytes g sel).1 = []) ∧
    (desiredBytes = 0 →
      (GenerateFull prior intervals desiredPkts desiredBytes g sel).1 =
        resizeValues prior desiredPkts) := by
  constructor
  · intro h
    subst h
    unfold GenerateFull
    rw [if_pos (Or.inl rfl)]
    unfold resizeValues
    simp
  · intro h
    subst h
    unfold GenerateFull
    rw [if_pos (Or.inr rfl)]

/-- Witness for C4 at concrete inputs: a nonempty prior pool, N = 0 gives
the empty pool, while B = 0 with N = 3 gives the resized prior pool. -/
theorem C4_amended_witness :
    (GenerateFull [5] [⟨64, 79, 1⟩] 0 7 ⟨fun _ => 0, 0⟩ (fun _ => 0)).1 = [] ∧
    (GenerateFull [5] [⟨64, 79, 1⟩] 3 0 ⟨fun _ => 0, 0⟩ (fun _ => 0)).1 =
      resizeValues [5] 3 :=
  ⟨(C4_amended [5] [⟨64, 79, 1⟩] 0 7 ⟨fun _ => 0, 0⟩ (fun _ => 0)).1 rfl,
   (C4_amended [5] [⟨64, 79, 1⟩] 3 0 ⟨fun _ => 0, 0⟩ (fun _ => 0)).2 rfl⟩

/- ========== Length preservation through the refinement phase =========== -/

theorem fillValues_length (n : Nat) (intervals : List IntervalInfo) (ps : ℚ) :
    ∀ g : Rng, (fillValues n intervals ps g).1.length = n := by
  induction n with
  | zero => intro g; rfl
  | succ n ih =>
    intro g
    unfold fillValues
    simp [ih]

theorem sweepLoop_length (intervals : List IntervalInfo) (ps : ℚ)
    (tMin tMax desiredBytes : Nat) :
    ∀ (rest prefx : List Nat) (valuesSum : Nat) (best : List Nat)
      (bestDiff : Nat) (g : Rng),
      (sweepLoop intervals ps tMin tMax desiredBytes
          prefx rest valuesSum best bestDiff g).values.length =
        prefx.length + rest.length := by
  intro rest
  induction rest with
  | nil => intro prefx valuesSum best bestDiff g; simp [sweepLoop]
  | cons v rest ih =>
    intro prefx valuesSum best bestDiff g
    unfold sweepLoop
    rcases hgv : GenerateRandomValue intervals ps g with ⟨nv, g1⟩
    dsimp only
    split_ifs with h1 h2 <;> simp [ih] <;> omega

theorem genLoop_length (intervals : List IntervalInfo)
    (desiredPkts desiredBytes tMin tMax : Nat) :
    ∀ (fuel : Nat) (values : List Nat) (valuesSum : Nat) (best : List Nat)
      (bestDiff : Nat) (g : Rng),
      (genLoop intervals desiredPkts desiredBytes tMin tMax
          fuel values valuesSum best bestDiff g).values.length =
        values.length := by
  intro fuel
  induction fuel with
  | zero => intro values valuesSum best bestDiff g; rfl
  | succ fuel ih =>
    intro values valuesSum best bestDiff g
    unfold genLoop
    split_ifs with h1
    · rw [ih, sweepLoop_length]
      simp
    · rfl

theorem GenerateCore_values_length (intervals : List IntervalInfo)
    (desiredPkts desiredBytes : Nat) (g : Rng) :
    (GenerateCore intervals desiredPkts desiredBytes g).values.length =
      desiredPkts := by
  unfold GenerateCore
  rw [genLoop_length, fillValues_length]

/- ===================== Claim C8 ======================================== -/

/-- Claim C8: in every generation run with N at least 2 and B at least 1
whose best-observed relative difference exceeds 0.2, the output pool is
filled with `desiredBytes / desiredBytes` in every position, and that
quotient equals 1 (the divisor is nonzero in every such run). -/
theorem C8_uniform_fallback (prior : List Nat) (intervals : List IntervalInfo)
    (desiredPkts desiredBytes : Nat) (g : Rng) (sel : Nat → Nat)
    (hN : 2 ≤ desiredPkts) (hB : 1 ≤ desiredBytes)
    (hfallb : (1 / 5 : ℚ) <
      ((GenerateCore intervals desiredPkts desiredBytes g).bestDiff : ℚ) /
        (desiredBytes : ℚ)) :
    (GenerateFull prior intervals desiredPkts desiredBytes g sel).1 =
      List.replicate desiredPkts (desiredBytes / desiredBytes) ∧
    desiredBytes / desiredBytes = 1 := by
  have hN0 : desiredPkts ≠ 0 := by omega
  have hN1 : desiredPkts ≠ 1 := by omega
  have hB0 : desiredBytes ≠ 0 := by omega
  constructor
  · unfold GenerateFull
    rw [if_neg (by push_neg; exact ⟨hN0, hB0⟩), if_neg hN1, if_pos hfallb,
      GenerateCore_values_length]
  · exact Nat.div_self (by omega)

theorem genLoop_exit (intervals : List IntervalInfo)
    (desiredPkts desiredBytes tMin tMax fuel : Nat) (values : List Nat)
    (valuesSum : Nat) (best : List Nat) (bestDiff : Nat) (g : Rng)
    (h : ¬(valuesSum < tMin ∨ tMax < valuesSum)) :
    genLoop intervals desiredPkts desiredBytes tMin tMax
        fuel values valuesSum best bestDiff g =
      ⟨values, valuesSum, best, bestDiff, g⟩ := by
  cases fuel with
  | zero => rfl
  | succ fuel =>
    unfold genLoop
    rw [if_neg h]

theorem C8_core_bestDiff :
    (GenerateCore [⟨20, 20, 1⟩] 2 2 ⟨fun _ => 0, 0⟩).bestDiff = 38 := by
  have hf : fillValues 2 [⟨20, 20, 1⟩] (SumProbabilities [⟨20, 20, 1⟩])
      ⟨fun _ => 0, 0⟩ = ([20, 20], ⟨fun _ => 0, 4⟩) := by
    norm_num [fillValues, GenerateRandomValue, grvLoop, randomDouble,
      randomUInt, Rng.next, unitFrac, SumProbabilities]
  unfold GenerateCore
  dsimp only
  rw [hf]
  norm_num [absDiff]
  rw [genLoop_exit _ _ _ _ _ _ _ _ _ _ _ (by omega)]

/-- Witness for C8: a single point interval at 20, N = 2, B = 2.  The
initial fill sums to 40, inside the wide band `[0, 52]`, so the loop never
runs, the best difference stays 38, the ratio 19 exceeds 0.2, and the pool
becomes two entries of 2 / 2 = 1. -/
theorem C8_uniform_fallback_witness :
    (GenerateFull [] [⟨20, 20, 1⟩] 2 2 ⟨fun _ => 0, 0⟩ (fun _ => 0)).1 =
      List.replicate 2 (2 / 2) ∧ 2 / 2 = 1 :=
  C8_uniform_fallback [] [⟨20, 20, 1⟩] 2 2 ⟨fun _ => 0, 0⟩ (fun _ => 0)
    (by norm_num) (by norm_num) (by rw [C8_core_bestDiff]; norm_num)

/- ========== Interval membership through the refinement phase =========== -/

theorem foldl_add_probTotal :
    ∀ (l : List IntervalInfo) (a : ℚ),
      l.foldl (fun sum inter => sum + inter.probability) a = a + probTotal l
  | [], a => by simp [probTotal]
  | i :: t, a => by
    simp only [List.foldl_cons, probTotal]
    rw [foldl_add_probTotal t]
    ring

theorem SumProbabilities_eq_probTotal (l : List IntervalInfo) :
    SumProbabilities l = probTotal l := by
  unfold SumProbabilities
  rw [foldl_add_probTotal]
  ring

theorem probTotal_nonneg (l : List IntervalInfo)
    (h : ∀ i ∈ l, 0 ≤ i.probability) : 0 ≤ probTotal l := by
  induction l with
  | nil => simp [probTotal]
  | cons i t ih =>
    simp only [probTotal]
    have h1 : 0 ≤ i.probability := h i (List.mem_cons_self i t)
    have h2 : 0 ≤ probTotal t := ih fun j hj => h j (List.mem_cons_of_mem _ hj)
    linarith

theorem grvLoop_mem :
    ∀ (l : List IntervalInfo) (genVal acc : ℚ) (g : Rng),
      l ≠ [] →
      (∀ i ∈ l, 0 ≤ i.probability ∧ i.from_ ≤ i.to_) →
      genVal ≤ acc + probTotal l →
      inUnion l (grvLoop l genVal acc g).1
  | [], _, _, _, hne, _, _ => absurd rfl hne
  | inter :: rest, genVal, acc, g, _, hwf, hb => by
    unfold grvLoop
    by_cases hc : genVal ≤ acc + inter.probability
    · rw [if_pos hc]
      have hm := randomUInt_mem g inter.from_ inter.to_
        (hwf inter (List.mem_cons_self _ _)).2
      exact ⟨inter, List.mem_cons_self _ _, hm.1, hm.2⟩
    · rw [if_neg hc]
      have hrne : rest ≠ [] := by
        intro he
        subst he
        simp only [probTotal, add_zero] at hb
        exact hc hb
      have hb2 : genVal ≤ (acc + inter.probability) + probTotal rest := by
        simp only [probTotal] at hb
        linarith
      obtain ⟨j, hj, hjb⟩ := grvLoop_mem rest genVal (acc + inter.probability) g
        hrne (fun i hi => hwf i (List.mem_cons_of_mem _ hi)) hb2
      exact ⟨j, List.mem_cons_of_mem _ hj, hjb⟩

theorem generateRandomValue_mem (intervals : List IntervalInfo) (g : Rng)
    (hne : intervals ≠ [])
    (hwf : ∀ i ∈ intervals, 0 ≤ i.probability ∧ i.from_ ≤ i.to_) :
    inUnion intervals
      (GenerateRandomValue intervals (SumProbabilities intervals) g).1 := by
  unfold GenerateRandomValue randomDouble Rng.next
  dsimp only
  apply grvLoop_mem _ _ _ _ hne hwf
  have hS : 0 ≤ probTotal intervals :=
    probTotal_nonneg intervals fun i hi => (hwf i hi).1
  have hu0 := unitFrac_nonneg (g.vals g.idx)
  have hu1 := unitFrac_lt_one (g.vals g.idx)
  rw [SumProbabilities_eq_probTotal]
  nlinarith

theorem biasIntervals_ne (intervals : List IntervalInfo)
    (valuesSum tMin tMax avg : Nat) (hne : intervals ≠ []) :
    biasIntervals intervals valuesSum tMin tMax avg ≠ [] := by
  unfold biasIntervals
  split_ifs
  · simpa using hne
  · simpa using hne
  · exact hne

theorem biasIntervals_wf (intervals : List IntervalInfo)
    (valuesSum tMin tMax avg : Nat)
    (hwf : ∀ i ∈ intervals, 0 ≤ i.probability ∧ i.from_ ≤ i.to_) :
    ∀ i ∈ biasIntervals intervals valuesSum tMin tMax avg,
      0 ≤ i.probability ∧ i.from_ ≤ i.to_ := by
  intro i hi
  unfold biasIntervals at hi
  split_ifs at hi
  · rcases List.mem_map.mp hi with ⟨j, hj, rfl⟩
    have hj2 := hwf j hj
    by_cases hc : j.from_ / 2 + j.to_ / 2 < avg
    · rw [if_pos hc]
      exact ⟨le_refl 0, hj2.2⟩
    · rw [if_neg hc]
      exact hj2
  · rcases List.mem_map.mp hi with ⟨j, hj, rfl⟩
    have hj2 := hwf j hj
    by_cases hc : avg < j.from_ / 2 + j.to_ / 2
    · rw [if_pos hc]
      exact ⟨le_refl 0, hj2.2⟩
    · rw [if_neg hc]
      exact hj2
  · exact hwf i hi

theorem inUnion_biasIntervals (intervals : List IntervalInfo)
    (valuesSum tMin tMax avg v : Nat)
    (h : inUnion (biasIntervals intervals valuesSum tMin tMax avg) v) :
    inUnion intervals v := by
  obtain ⟨i, hi, hbd⟩ := h
  unfold biasIntervals at hi
  split_ifs at hi
  · rcases List.mem_map.mp hi with ⟨j, hj, rfl⟩
    refine ⟨j, hj, ?_⟩
    by_cases hc : j.from_ / 2 + j.to_ / 2 < avg
    · rw [if_pos hc] at hbd
      exact hbd
    · rw [if_neg hc] at hbd
      exact hbd
  · rcases List.mem_map.mp hi with ⟨j, hj, rfl⟩
    refine ⟨j, hj, ?_⟩
    by_cases hc : avg < j.from_ / 2 + j.to_ / 2
    · rw [if_pos hc] at hbd
      exact hbd
    · rw [if_neg hc] at hbd
      exact hbd
  · exact ⟨i, hi, hbd⟩

theorem fillValues_mem (intervals : List IntervalInfo)
    (hne : intervals ≠ [])
    (hwf : ∀ i ∈ intervals, 0 ≤ i.probability ∧ i.from_ ≤ i.to_) :
    ∀ (n : Nat) (g : Rng) (v : Nat),
      v ∈ (fillValues n intervals (SumProbabilities intervals) g).1 →
      inUnion intervals v := by
  intro n
  induction n with
  | zero =>
    intro g v hv
    simp [fillValues] at hv
  | succ n ih =>
    intro g v hv
    unfold fillValues at hv
    rcases hgv : GenerateRandomValue intervals (SumProbabilities intervals) g
      with ⟨nv, g1⟩
    rw [hgv] at hv
    dsimp only at hv
    rcases hf : fillValues n intervals (SumProbabilities intervals) g1
      with ⟨rest, g2⟩
    rw [hf] at hv
    dsimp only at hv
    rcases List.mem_cons.mp hv with h | h
    · subst h
      have hm := generateRandomValue_mem intervals g hne hwf
      rw [hgv] at hm
      exact hm
    · apply ih g1 v
      rw [hf]
      exact h

theorem sweepLoop_inv (intervals ivs0 : List IntervalInfo) (ps : ℚ)
    (tMin tMax desiredBytes : Nat)
    (hne : intervals ≠ [])
    (hwf : ∀ i ∈ intervals, 0 ≤ i.probability ∧ i.from_ ≤ i.to_)
    (hps : ps = SumProbabilities intervals)
    (htrans : ∀ v, inUnion intervals v → inUnion ivs0 v) :
    ∀ (rest prefx : List Nat) (valuesSum : Nat) (best : List Nat)
      (bestDiff : Nat) (g : Rng),
      (∀ v ∈ prefx, inUnion ivs0 v) →
      (∀ v ∈ rest, inUnion ivs0 v) →
      (∀ v ∈ best, inUnion ivs0 v) →
      (∀ v ∈ (sweepLoop intervals ps tMin tMax desiredBytes
          prefx rest valuesSum best bestDiff g).values, inUnion ivs0 v) ∧
      (∀ v ∈ (sweepLoop intervals ps tMin tMax desiredBytes
          prefx rest valuesSum best bestDiff g).best, inUnion ivs0 v) := by
  intro rest
  induction rest with
  | nil =>
    intro prefx valuesSum best bestDiff g hp _ hb
    exact ⟨hp, hb⟩
  | cons v rest ih =>
    intro prefx valuesSum best bestDiff g hp hr hb
    unfold sweepLoop
    rcases hgv : GenerateRandomValue intervals ps g with ⟨nv, g1⟩
    dsimp only
    have hnv : inUnion ivs0 nv := by
      subst hps
      have hm := generateRandomValue_mem intervals g hne hwf
      rw [hgv] at hm
      exact htrans nv hm
    have hrest : ∀ x ∈ rest, inUnion ivs0 x :=
      fun x hx => hr x (List.mem_cons_of_mem _ hx)
    have hcur : ∀ x ∈ prefx ++ nv :: rest, inUnion ivs0 x := by
      intro x hx
      rcases List.mem_append.mp hx with h | h
      · exact hp x h
      · rcases List.mem_cons.mp h with h | h
        · subst h
          exact hnv
        · exact hrest x h
    have hpref : ∀ x ∈ prefx ++ [nv], inUnion ivs0 x := by
      intro x hx
      rcases List.mem_append.mp hx with h | h
      · exact hp x h
      · rcases List.mem_singleton.mp h with rfl
        exact hnv
    split_ifs with h1 h2
    · exact ⟨hcur, hb⟩
    · exact ih (prefx ++ [nv]) _ (prefx ++ nv :: rest) _ g1 hpref hrest hcur
    · exact ih (prefx ++ [nv]) _ best _ g1 hpref hrest hb

theorem genLoop_inv (intervals : List IntervalInfo)
    (desiredPkts desiredBytes tMin tMax : Nat)
    (hne : intervals ≠ [])
    (hwf : ∀ i ∈ intervals, 0 ≤ i.probability ∧ i.from_ ≤ i.to_) :
    ∀ (fuel : Nat) (values : List Nat) (valuesSum : Nat) (best : List Nat)
      (bestDiff : Nat) (g : Rng),
      (∀ v ∈ values, inUnion intervals v) →
      (∀ v ∈ best, inUnion intervals v) →
      (∀ v ∈ (genLoop intervals desiredPkts desiredBytes tMin tMax
          fuel values valuesSum best bestDiff g).values, inUnion intervals v) ∧
      (∀ v ∈ (genLoop intervals desiredPkts desiredBytes tMin tMax
          fuel values valuesSum best bestDiff g).best, inUnion intervals v) := by
  intro fuel
  induction fuel with
  | zero =>
    intro values valuesSum best bestDiff g hv hb
    exact ⟨hv, hb⟩
  | succ fuel ih =>
    intro values valuesSum best bestDiff g hv hb
    unfold genLoop
    split_ifs with h1
    · dsimp only
      have hbne := biasIntervals_ne intervals valuesSum tMin tMax
        (valuesSum / desiredPkts) hne
      have hbwf := biasIntervals_wf intervals valuesSum tMin tMax
        (valuesSum / desiredPkts) hwf
      have hsw := sweepLoop_inv
        (biasIntervals intervals valuesSum tMin tMax (valuesSum / desiredPkts))
        intervals
        (SumProbabilities
          (biasIntervals intervals valuesSum tMin tMax (valuesSum / desiredPkts)))
        tMin tMax desiredBytes hbne hbwf rfl
        (fun x hx => inUnion_biasIntervals intervals valuesSum tMin tMax
          (valuesSum / desiredPkts) x hx)
        values [] valuesSum best bestDiff g (by simp) hv hb
      apply ih _ _ _ _ _ hsw.1
      by_cases hd : absDiff (sweepLoop
          (biasIntervals intervals valuesSum tMin tMax (valuesSum / desiredPkts))
          (SumProbabilities
            (biasIntervals intervals valuesSum tMin tMax (valuesSum / desiredPkts)))
          tMin tMax desiredBytes [] values valuesSum best bestDiff g).sum
          desiredBytes <
        (sweepLoop
          (biasIntervals intervals valuesSum tMin tMax (valuesSum / desiredPkts))
          (SumProbabilities
            (biasIntervals intervals valuesSum tMin tMax (valuesSum / desiredPkts)))
          tMin tMax desiredBytes [] values valuesSum best bestDiff g).bestDiff
      · rw [if_pos hd]
        exact hsw.1
      · rw [if_neg hd]
        exact hsw.2
    · exact ⟨hv, hb⟩

theorem GenerateCore_best_mem (intervals : List IntervalInfo)
    (desiredPkts desiredBytes : Nat) (g : Rng)
    (hne : intervals ≠ [])
    (hwf : ∀ i ∈ intervals, 0 ≤ i.probability ∧ i.from_ ≤ i.to_) :
    ∀ v ∈ (GenerateCore intervals desiredPkts desiredBytes g).best,
      inUnion intervals v := by
  unfold GenerateCore
  dsimp only
  rcases hf : fillValues desiredPkts intervals (SumProbabilities intervals) g
    with ⟨values, g1⟩
  dsimp only
  have hv : ∀ v ∈ values, inUnion intervals v := by
    intro v hv
    apply fillValues_mem intervals hne hwf desiredPkts g v
    rw [hf]
    exact hv
  exact (genLoop_inv intervals desiredPkts desiredBytes _ _ hne hwf
    2000 values _ values _ g1 hv hv).2

theorem shuffleGo_subset :
    ∀ (n : Nat) (sel : Nat → Nat) (l : List Nat) (v : Nat),
      v ∈ shuffleGo n sel l → v ∈ l := by
  intro n
  induction n with
  | zero =>
    intro sel l v h
    exact h
  | succ n ih =>
    intro sel l v h
    cases l with
    | nil =>
      simp [shuffleGo] at h
    | cons x xs =>
      unfold shuffleGo at h
      rcases List.mem_cons.mp h with h | h
      · rw [h]
        exact List.get_mem _ _ _
      · exact List.mem_of_mem_eraseIdx (ih sel _ v h)

/- ===================== Claim C3 ======================================== -/

/-- Claim C3, counterexample: N = 1 with B = 1000 over the single interval
`[10, 20]` emits the single value B itself; the output sum equals B (so the
claimed 0.2 tolerance hypothesis holds), yet the emitted value 1000 lies in
no interval of the distribution. -/
theorem C3_counterexample :
    (GenerateFull [] [⟨10, 20, 1⟩] 1 1000 ⟨fun _ => 0, 0⟩ (fun _ => 0)).1 =
      [1000] ∧
    ((absDiff 1000 1000 : Nat) : ℚ) / (1000 : ℚ) ≤ 1 / 5 ∧
    ¬ (∀ v ∈ (GenerateFull [] [⟨10, 20, 1⟩] 1 1000 ⟨fun _ => 0, 0⟩
        (fun _ => 0)).1, inUnion [⟨10, 20, 1⟩] v) := by
  have h1 : (GenerateFull [] [⟨10, 20, 1⟩] 1 1000 ⟨fun _ => 0, 0⟩
      (fun _ => 0)).1 = [1000] := rfl
  refine ⟨h1, ?_, ?_⟩
  · norm_num [absDiff]
  · rw [h1]
    decide

/-- Claim C3, amended: for every generation run with N at least 2 and B at
least 1 over a nonempty well-formed interval list, if the best-observed
difference keeps the run off the uniform fallback (ratio at most 0.2), then
every value in the output pool lies inside the union of the distribution's
intervals.  The N = 1 case instead emits B itself and the fallback case
fills the pool with ones, neither of which need lie in any interval. -/
theorem C3_values_in_union (prior : List Nat) (intervals : List IntervalInfo)
    (desiredPkts desiredBytes : Nat) (g : Rng) (sel : Nat → Nat)
    (hN : 2 ≤ desiredPkts) (hB : 1 ≤ desiredBytes)
    (hne : intervals ≠ [])
    (hwf : ∀ i ∈ intervals, 0 ≤ i.probability ∧ i.from_ ≤ i.to_)
    (hfb : ¬ ((1 / 5 : ℚ) <
      ((GenerateCore intervals desiredPkts desiredBytes g).bestDiff : ℚ) /
        (desiredBytes : ℚ))) :
    ∀ v ∈ (GenerateFull prior intervals desiredPkts desiredBytes g sel).1,
      inUnion intervals v := by
  intro v hv
  unfold GenerateFull at hv
  rw [if_neg (by omega), if_neg (by omega)] at hv
  dsimp only at hv
  rw [if_neg hfb] at hv
  unfold shuffleSel at hv
  exact GenerateCore_best_mem intervals desiredPkts desiredBytes g hne hwf v
    (shuffleGo_subset _ sel _ v hv)

theorem C3_core_bestDiff :
    (GenerateCore [⟨60, 60, 1⟩] 2 120 ⟨fun _ => 0, 0⟩).bestDiff = 0 := by
  have hf : fillValues 2 [⟨60, 60, 1⟩] (SumProbabilities [⟨60, 60, 1⟩])
      ⟨fun _ => 0, 0⟩ = ([60, 60], ⟨fun _ => 0, 4⟩) := by
    norm_num [fillValues, GenerateRandomValue, grvLoop, randomDouble,
      randomUInt, Rng.next, unitFrac, SumProbabilities]
  unfold GenerateCore
  dsimp only
  rw [hf]
  norm_num [absDiff]
  rw [genLoop_exit _ _ _ _ _ _ _ _ _ _ _ (by omega)]

/-- Witness for C3 at concrete inputs: N = 2, B = 120 over the single point
interval at 60; the fill hits the band at once, the best difference is 0,
no fallback happens, and every pool value lies inside the interval. -/
theorem C3_values_in_union_witness :
    ((2 : Nat) ≤ 2 ∧ (1 : Nat) ≤ 120 ∧
      ([⟨60, 60, 1⟩] : List IntervalInfo) ≠ []) ∧
    (∀ v ∈ (GenerateFull [] [⟨60, 60, 1⟩] 2 120 ⟨fun _ => 0, 0⟩
        (fun _ => 0)).1, inUnion [⟨60, 60, 1⟩] v) :=
  ⟨⟨by norm_num, by norm_num, by decide⟩,
    C3_values_in_union [] [⟨60, 60, 1⟩] 2 120 ⟨fun _ => 0, 0⟩ (fun _ => 0)
      (by norm_num) (by norm_num) (by decide)
      (by
        intro i hi
        rcases List.mem_singleton.mp hi with rfl
        exact ⟨by norm_num, by norm_num⟩)
      (by
        rw [C3_core_bestDiff]
        norm_num)⟩

/- ============== Timestamp planning (Flow::PlanPacketsTimestamps) ======= -/

/-- Timeval: a timestamp with seconds and microseconds, modelled from the
spec (microsecond resolution, compared lexicographically). -/
structure Timeval where
  sec : Int
  usec : Int
deriving DecidableEq, Repr

/-- The order on timestamps used when sorting the plan list. -/
def tvLe (a b : Timeval) : Prop :=
  a.sec < b.sec ∨ (a.sec = b.sec ∧ a.usec ≤ b.usec)

instance (a b : Timeval) : Decidable (tvLe a b) := by
  unfold tvLe
  exact inferInstance

/-- Boolean form of the timestamp order, used by the sort. -/
def tvLeB (a b : Timeval) : Bool := decide (tvLe a b)

theorem tvLe_refl (a : Timeval) : tvLe a a := Or.inr ⟨rfl, le_refl _⟩

theorem tvLe_trans {a b c : Timeval} (h1 : tvLe a b) (h2 : tvLe b c) :
    tvLe a c := by
  unfold tvLe at h1 h2 ⊢
  omega

theorem tvLe_total (a b : Timeval) : tvLe a b ∨ tvLe b a := by
  unfold tvLe
  omega

theorem tvLe_antisymm {a b : Timeval} (h1 : tvLe a b) (h2 : tvLe b a) :
    a = b := by
  obtain ⟨s1, u1⟩ := a
  obtain ⟨s2, u2⟩ := b
  unfold tvLe at h1 h2
  simp only [Timeval.mk.injEq]
  simp only at h1 h2
  omega

/-- Insertion into a sorted list; together with `sortTv` this models the
std::sort call on the timestamp vector: for the total antisymmetric
timestamp order the sorted permutation is unique, so any sorting algorithm
produces this result. -/
def insertTv (x : Timeval) : List Timeval → List Timeval
  | [] => [x]
  | y :: ys => if tvLeB x y then x :: y :: ys else y :: insertTv x ys

/-- Sorting of the timestamp vector (std::sort with the `<` comparator). -/
def sortTv : List Timeval → List Timeval
  | [] => []
  | x :: xs => insertTv x (sortTv xs)

theorem insertTv_length (x : Timeval) :
    ∀ l : List Timeval, (insertTv x l).length = l.length + 1
  | [] => rfl
  | y :: ys => by
    unfold insertTv
    split_ifs
    · rfl
    · simp [insertTv_length x ys]

theorem sortTv_length : ∀ l : List Timeval, (sortTv l).length = l.length
  | [] => rfl
  | x :: xs => by
    unfold sortTv
    rw [insertTv_length, sortTv_length xs]
    rfl

theorem mem_insertTv (v x : Timeval) :
    ∀ l : List Timeval, v ∈ insertTv x l ↔ v = x ∨ v ∈ l
  | [] => by simp [insertTv]
  | y :: ys => by
    unfold insertTv
    split_ifs
    · simp
    · rw [List.mem_cons, mem_insertTv v x ys, List.mem_cons]
      tauto

theorem mem_sortTv (v : Timeval) :
    ∀ l : List Timeval, v ∈ sortTv l ↔ v ∈ l
  | [] => Iff.rfl
  | x :: xs => by
    unfold sortTv
    rw [mem_insertTv, mem_sortTv v xs, List.mem_cons]

theorem insertTv_pairwise (x : Timeval) :
    ∀ l : List Timeval, List.Pairwise tvLe l →
      List.Pairwise tvLe (insertTv x l)
  | [], _ => List.pairwise_singleton _ _
  | y :: ys, hp => by
    obtain ⟨hy, hys⟩ := List.pairwise_cons.mp hp
    unfold insertTv
    split_ifs with hc
    · refine List.pairwise_cons.mpr ⟨?_, hp⟩
      intro z hz
      have hxy : tvLe x y := of_decide_eq_true hc
      rcases List.mem_cons.mp hz with rfl | hz2
      · exact hxy
      · exact tvLe_trans hxy (hy z hz2)
    · refine List.pairwise_cons.mpr ⟨?_, insertTv_pairwise x ys hys⟩
      intro z hz
      have hyx : tvLe y x := by
        rcases tvLe_total x y with h | h
        · exact absurd (decide_eq_true h) hc
        · exact h
      rcases (mem_insertTv z x ys).mp hz with rfl | hz2
      · exact hyx
      · exact hy z hz2

theorem sortTv_pairwise :
    ∀ l : List Timeval, List.Pairwise tvLe (sortTv l)
  | [] => List.Pairwise.nil
  | x :: xs => insertTv_pairwise x (sortTv xs) (sortTv_pairwise xs)

/-- One draw from std::uniform_int_distribution(lo, hi) given the raw
engine output `n`: a value in `[lo, hi]`. -/
def uniformIntDraw (n : Nat) (lo hi : Int) : Int :=
  lo + (n : Int) % (hi - lo + 1)

theorem uniformIntDraw_mem (n : Nat) (lo hi : Int) (h : lo ≤ hi) :
    lo ≤ uniformIntDraw n lo hi ∧ uniformIntDraw n lo hi ≤ hi := by
  unfold uniformIntDraw
  have h1 : 0 ≤ (n : Int) % (hi - lo + 1) := Int.emod_nonneg _ (by omega)
  have h2 : (n : Int) % (hi - lo + 1) < hi - lo + 1 :=
    Int.emod_lt_of_pos _ (by omega)
  omega

/-- One middle timestamp of Flow::PlanPacketsTimestamps: the second is
drawn from `[tsFirst.sec, tsLast.sec]`; the microsecond distribution
depends on whether the drawn second hits the first or the last boundary
second, with the boundary distributions set up once according to whether
the two boundary seconds coincide.  The local mt19937 engine seeded from
std::random_device is modelled by the raw entropy stream `dev`; middle `k`
consumes the entries `2k` (seconds) and `2k + 1` (microseconds). -/
def genMiddleTs (tsFirst tsLast : Timeval) (dev : Nat → Nat) (k : Nat) :
    Timeval :=
  let sec := uniformIntDraw (dev (2 * k)) tsFirst.sec tsLast.sec
  let usec :=
    if sec = tsFirst.sec then
      if tsFirst.sec = tsLast.sec then
        uniformIntDraw (dev (2 * k + 1)) tsFirst.usec tsLast.usec
      else uniformIntDraw (dev (2 * k + 1)) tsFirst.usec 999999
    else if sec = tsLast.sec then
      if tsFirst.sec = tsLast.sec then
        uniformIntDraw (dev (2 * k + 1)) tsFirst.usec tsLast.usec
      else uniformIntDraw (dev (2 * k + 1)) 0 tsLast.usec
    else uniformIntDraw (dev (2 * k + 1)) 0 999999
  ⟨sec, usec⟩

/-- Flow::PlanPacketsTimestamps: generate `numPackets - 2` middle
timestamps (none when the flow has at most two packets), put the two
boundary timestamps in front, sort ascending and assign positionally to
the packet plans (modelled as taking the first `numPackets` sorted
entries; the packet span covers all plans of the flow). -/
def PlanPacketsTimestamps (tsFirst tsLast : Timeval) (numPackets : Nat)
    (dev : Nat → Nat) : List Timeval :=
  let timestampsToGen := if 2 < numPackets then numPackets - 2 else 0
  let middles :=
    (List.range timestampsToGen).map (genMiddleTs tsFirst tsLast dev)
  let timestamps := tsFirst :: tsLast :: middles
  (sortTv timestamps).take numPackets

theorem genMiddleTs_bounds (tsFirst tsLast : Timeval) (dev : Nat → Nat)
    (k : Nat) (hle : tvLe tsFirst tsLast) (hu1 : tsFirst.usec ≤ 999999)
    (hu2 : 0 ≤ tsLast.usec) :
    tvLe tsFirst (genMiddleTs tsFirst tsLast dev k) ∧
    tvLe (genMiddleTs tsFirst tsLast dev k) tsLast := by
  unfold tvLe at hle
  have hsec : tsFirst.sec ≤ tsLast.sec := by omega
  have hs := uniformIntDraw_mem (dev (2 * k)) tsFirst.sec tsLast.sec hsec
  unfold genMiddleTs
  dsimp only
  split_ifs with h1 h2 h3 h4
  · have hu := uniformIntDraw_mem (dev (2 * k + 1)) tsFirst.usec tsLast.usec
      (by omega)
    unfold tvLe
    dsimp only
    omega
  · have hu := uniformIntDraw_mem (dev (2 * k + 1)) tsFirst.usec 999999
      (by omega)
    unfold tvLe
    dsimp only
    omega
  · have hu := uniformIntDraw_mem (dev (2 * k + 1)) tsFirst.usec tsLast.usec
      (by omega)
    unfold tvLe
    dsimp only
    omega
  · have hu := uniformIntDraw_mem (dev (2 * k + 1)) 0 tsLast.usec hu2
    unfold tvLe
    dsimp only
    omega
  · have hu := uniformIntDraw_mem (dev (2 * k + 1)) 0 999999 (by omega)
    unfold tvLe
    dsimp only
    omega

theorem sorted_head_eq (l : List Timeval) (a : Timeval)
    (hp : List.Pairwise tvLe l) (ha : a ∈ l) (hlb : ∀ t ∈ l, tvLe a t) :
    l.head? = some a := by
  cases l with
  | nil => simp at ha
  | cons x xs =>
    have h1 : tvLe a x := hlb x (List.mem_cons_self _ _)
    rcases List.mem_cons.mp ha with h | h
    · rw [h]
      rfl
    · have h2 : tvLe x a := (List.pairwise_cons.mp hp).1 a h
      rw [List.head?_cons, tvLe_antisymm h2 h1]

theorem pairwise_le_getLast (l : List Timeval) (a : Timeval) :
    List.Pairwise tvLe l → l.getLast? = some a →
    ∀ x ∈ l, tvLe x a ∨ x = a := by
  induction l with
  | nil =>
    intro _ hl
    simp at hl
  | cons b t ih =>
    intro hp hl x hx
    cases t with
    | nil =>
      simp only [List.getLast?_singleton, Option.some.injEq] at hl
      rcases List.mem_singleton.mp hx with rfl
      right
      rw [hl]
    | cons c u =>
      rw [List.getLast?_cons_cons] at hl
      rcases List.mem_cons.mp hx with rfl | hx2
      · left
        exact (List.pairwise_cons.mp hp).1 a (List.mem_of_getLast?_eq_some hl)
      · exact ih (List.pairwise_cons.mp hp).2 hl x hx2

theorem sorted_last_eq (l : List Timeval) (a : Timeval)
    (hp : List.Pairwise tvLe l) (ha : a ∈ l) (hub : ∀ t ∈ l, tvLe t a) :
    l.getLast? = some a := by
  cases hll : l.getLast? with
  | none =>
    rw [List.getLast?_eq_none_iff] at hll
    subst hll
    simp at ha
  | some b =>
    have hmem : b ∈ l := List.mem_of_getLast?_eq_some hll
    have h1 : tvLe b a := hub b hmem
    rcases pairwise_le_getLast l b hp hll a ha with h2 | h2
    · rw [tvLe_antisymm h1 h2]
    · rw [h2]

/- ===================== Claim C7 ======================================== -/

/-- Claim C7: for every planned flow with at least 2 packets (and a
well-formed profile interval), the assigned timestamps are a list of
exactly `numPackets` nondecreasing entries inside `[tsFirst, tsLast]`
whose first element is `tsFirst` and whose last element is `tsLast`,
for every outcome of the timestamp entropy. -/
theorem C7_timestamps (tsFirst tsLast : Timeval) (numPackets : Nat)
    (dev : Nat → Nat) (hN : 2 ≤ numPackets) (hle : tvLe tsFirst tsLast)
    (hu1 : tsFirst.usec ≤ 999999) (hu2 : 0 ≤ tsLast.usec) :
    (PlanPacketsTimestamps tsFirst tsLast numPackets dev).length =
      numPackets ∧
    List.Pairwise tvLe (PlanPacketsTimestamps tsFirst tsLast numPackets dev) ∧
    (∀ t ∈ PlanPacketsTimestamps tsFirst tsLast numPackets dev,
      tvLe tsFirst t ∧ tvLe t tsLast) ∧
    (PlanPacketsTimestamps tsFirst tsLast numPackets dev).head? =
      some tsFirst ∧
    (PlanPacketsTimestamps tsFirst tsLast numPackets dev).getLast? =
      some tsLast := by
  unfold PlanPacketsTimestamps
  dsimp only
  set tsGen := if 2 < numPackets then numPackets - 2 else 0 with htsGen
  set middles := (List.range tsGen).map (genMiddleTs tsFirst tsLast dev)
    with hmid
  set base := tsFirst :: tsLast :: middles with hbase
  have htsGen2 : tsGen = numPackets - 2 := by
    rw [htsGen]
    split_ifs <;> omega
  have hlen : base.length = numPackets := by
    rw [hbase, hmid]
    simp only [List.length_cons, List.length_map, List.length_range]
    omega
  have hsortlen : (sortTv base).length = numPackets := by
    rw [sortTv_length, hlen]
  have htake : (sortTv base).take numPackets = sortTv base :=
    List.take_of_length_le (le_of_eq hsortlen)
  rw [htake]
  have hbounds : ∀ t ∈ base, tvLe tsFirst t ∧ tvLe t tsLast := by
    intro t ht
    rw [hbase] at ht
    rcases List.mem_cons.mp ht with rfl | ht
    · exact ⟨tvLe_refl t, hle⟩
    · rcases List.mem_cons.mp ht with rfl | ht
      · exact ⟨hle, tvLe_refl t⟩
      · rw [hmid] at ht
        rcases List.mem_map.mp ht with ⟨k, _, rfl⟩
        exact genMiddleTs_bounds tsFirst tsLast dev k hle hu1 hu2
  have hsbounds : ∀ t ∈ sortTv base, tvLe tsFirst t ∧ tvLe t tsLast :=
    fun t ht => hbounds t ((mem_sortTv t base).mp ht)
  have hpair := sortTv_pairwise base
  refine ⟨hsortlen, hpair, hsbounds, ?_, ?_⟩
  · apply sorted_head_eq _ _ hpair
    · exact (mem_sortTv _ _).mpr (List.mem_cons_self _ _)
    · exact fun t ht => (hsbounds t ht).1
  · apply sorted_last_eq _ _ hpair
    · exact (mem_sortTv _ _).mpr (List.mem_cons_of_mem _ (List.mem_cons_self _ _))
    · exact fun t ht => (hsbounds t ht).2

/-- Witness for C7: a two-packet flow from 1.000100 to 2.000200 with the
all-zero entropy stream; the plan is exactly `[tsFirst, tsLast]`. -/
theorem C7_timestamps_witness :
    (PlanPacketsTimestamps ⟨1, 100⟩ ⟨2, 200⟩ 2 (fun _ => 0)).length = 2 ∧
    List.Pairwise tvLe (PlanPacketsTimestamps ⟨1, 100⟩ ⟨2, 200⟩ 2
      (fun _ => 0)) ∧
    (∀ t ∈ PlanPacketsTimestamps ⟨1, 100⟩ ⟨2, 200⟩ 2 (fun _ => 0),
      tvLe ⟨1, 100⟩ t ∧ tvLe t ⟨2, 200⟩) ∧
    (PlanPacketsTimestamps ⟨1, 100⟩ ⟨2, 200⟩ 2 (fun _ => 0)).head? =
      some ⟨1, 100⟩ ∧
    (PlanPacketsTimestamps ⟨1, 100⟩ ⟨2, 200⟩ 2 (fun _ => 0)).getLast? =
      some ⟨2, 200⟩ :=
  C7_timestamps ⟨1, 100⟩ ⟨2, 200⟩ 2 (fun _ => 0) (by decide)
    (by decide) (by decide) (by decide)

/- ===================== Claim C1 ======================================== -/

/-- Claim C1, counterexample: the timestamp-assignment step draws from a
local mt19937 engine seeded from std::random_device, not from the shared
seeded RandomGenerator, so two runs with identical profile, config,
rng-seed and address-seed but different random_device outcomes assign
different timestamps (and hence different PCAP bytes).  Here the profile
`Ts = 0.0, Te = 10.0, P = 3` is fixed and only the device entropy differs. -/
theorem C1_counterexample :
    PlanPacketsTimestamps ⟨0, 0⟩ ⟨10, 0⟩ 3 (fun _ => 0) ≠
      PlanPacketsTimestamps ⟨0, 0⟩ ⟨10, 0⟩ 3 (fun _ => 1) := by
  decide

/-- Claim C1, amended: determinism of the timestamp step holds only when
the random_device entropy driving its local engine is also identical:
two runs over the same profile whose device streams agree pointwise
produce identical timestamps. -/
theorem C1_amended (tsFirst tsLast : Timeval) (numPackets : Nat)
    (dev1 dev2 : Nat → Nat) (h : ∀ i, dev1 i = dev2 i) :
    PlanPacketsTimestamps tsFirst tsLast numPackets dev1 =
      PlanPacketsTimestamps tsFirst tsLast numPackets dev2 := by
  have hdev : dev1 = dev2 := funext h
  rw [hdev]

/-- Witness for C1 at a concrete profile and stream. -/
theorem C1_amended_witness :
    PlanPacketsTimestamps ⟨0, 0⟩ ⟨10, 0⟩ 3 (fun _ => 0) =
      PlanPacketsTimestamps ⟨0, 0⟩ ⟨10, 0⟩ 3 (fun i => i - i) :=
  C1_amended ⟨0, 0⟩ ⟨10, 0⟩ 3 (fun _ => 0) (fun i => i - i)
    (fun i => by simp)

/- ============== Encapsulation choice (flow.cpp ChooseEncaps) =========== -/

/-- An encapsulation layer description from the config (vlan id or mpls
label). -/
inductive EncapsulationLayer where
  | vlan (id : Nat)
  | mpls (label : Nat)
deriving DecidableEq, Repr

/-- An encapsulation variant: its probability and its layer list. -/
structure EncapsulationVariant where
  probability : ℚ
  layers : List EncapsulationLayer
deriving DecidableEq, Repr

/-- The accumulation walk of ChooseEncaps: return the layers of the first
variant whose cumulative probability covers the draw, or no layers when
the draw exceeds the total. -/
def chooseEncapsLoop :
    List EncapsulationVariant → ℚ → ℚ → List EncapsulationLayer
  | [], _, _ => []
  | variant :: rest, rand, accum =>
    let accum1 := accum + variant.probability
    if rand ≤ accum1 then variant.layers
    else chooseEncapsLoop rest rand accum1

/-- ChooseEncaps(variants): an empty list yields no layers and consumes no
randomness; otherwise one RandomDouble() draw is consumed — with the
default argument range `[0, 1]` of RandomGenerator::RandomDouble — and the
cumulative walk picks the variant. -/
def ChooseEncaps (variants : List EncapsulationVariant) (g : Rng) :
    List EncapsulationLayer × Rng :=
  if variants.isEmpty then ([], g)
  else
    let (rand, g1) := randomDouble g 0 1
    (chooseEncapsLoop variants rand 0, g1)

/-- Cumulative probability of the first `k` encapsulation variants. -/
def cumProb (variants : List EncapsulationVariant) (k : Nat) : ℚ :=
  ((variants.take k).map fun v => v.probability).sum

/-- The selection rule in the spec's words, as a function of the drawn
real: the first variant whose cumulative probability covers the draw;
no layers when no variant covers it. -/
def specChooseFirstCovering (variants : List EncapsulationVariant)
    (draw : ℚ) : List EncapsulationLayer :=
  match (List.range variants.length).find?
      (fun k => decide (draw ≤ cumProb variants (k + 1))) with
  | some k => (variants.getD k ⟨0, []⟩).layers
  | none => []

/-- Total probability weight of the variant list. -/
def sumVariantProb (variants : List EncapsulationVariant) : ℚ :=
  (variants.map fun v => v.probability).sum

/-- The selection exactly as the claim words it: a uniform real drawn in
`[0, sum of the probabilities)` and the first covering variant. -/
def claimChooseEncaps (variants : List EncapsulationVariant) (g : Rng) :
    List EncapsulationLayer :=
  specChooseFirstCovering variants
    (randomDouble g 0 (sumVariantProb variants)).1

theorem cumProb_zero (variants : List EncapsulationVariant) :
    cumProb variants 0 = 0 := by
  simp [cumProb]

theorem cumProb_cons_succ (v : EncapsulationVariant)
    (rest : List EncapsulationVariant) (k : Nat) :
    cumProb (v :: rest) (k + 1) = v.probability + cumProb rest k := by
  unfold cumProb
  simp

theorem chooseEncapsLoop_eq_spec :
    ∀ (variants : List EncapsulationVariant) (rand accum : ℚ),
      chooseEncapsLoop variants rand accum =
        (match (List.range variants.length).find?
            (fun k => decide (rand ≤ accum + cumProb variants (k + 1))) with
        | some k => (variants.getD k ⟨0, []⟩).layers
        | none => [])
  | [], rand, accum => by simp [chooseEncapsLoop]
  | v :: rest, rand, accum => by
    unfold chooseEncapsLoop
    rw [List.length_cons, List.range_succ_eq_map]
    by_cases hc : rand ≤ accum + v.probability
    · rw [if_pos hc, List.find?_cons_of_pos _ (by
        simp only [decide_eq_true_eq, cumProb_cons_succ, cumProb_zero]
        linarith)]
      rfl
    · rw [if_neg hc, List.find?_cons_of_neg _ (by
        simp only [decide_eq_true_eq, cumProb_cons_succ, cumProb_zero]
        intro hk
        exact hc (by linarith)), List.find?_map]
      have hfun : ((fun k => decide (rand ≤ accum + cumProb (v :: rest) (k + 1)))
          ∘ Nat.succ) =
          (fun k => decide (rand ≤ accum + v.probability + cumProb rest (k + 1))) := by
        funext k
        simp only [Function.comp_apply, decide_eq_decide, Nat.succ_eq_add_one,
          cumProb_cons_succ]
        constructor <;> intro hk <;> linarith
      rw [hfun, chooseEncapsLoop_eq_spec rest rand (accum + v.probability)]
      cases hfind : (List.range rest.length).find?
          (fun k => decide (rand ≤ accum + v.probability + cumProb rest (k + 1))) with
      | none => simp
      | some j => simp

theorem specChooseFirstCovering_eq_loop
    (variants : List EncapsulationVariant) (draw : ℚ) :
    specChooseFirstCovering variants draw = chooseEncapsLoop variants draw 0 := by
  rw [chooseEncapsLoop_eq_spec]
  unfold specChooseFirstCovering
  have hfun : (fun k => decide (draw ≤ cumProb variants (k + 1))) =
      (fun k => decide (draw ≤ 0 + cumProb variants (k + 1))) := by
    funext k
    simp
  rw [hfun]

/- ===================== Claim C9 ======================================== -/

/-- Claim C9, counterexample: the code draws RandomDouble() in `[0, 1]`,
not in `[0, sum of the probabilities)`.  With a single variant of
probability 1/4 carrying the layer `vlan 1`, the raw draw 0.9 makes the
code return no layers, while the claimed semantics (a draw in the scaled
range `[0, 1/4)`) always returns the variant's layers. -/
theorem C9_counterexample :
    (ChooseEncaps [⟨1 / 4, [.vlan 1]⟩] ⟨fun _ => 900000, 0⟩).1 = [] ∧
    claimChooseEncaps [⟨1 / 4, [.vlan 1]⟩] ⟨fun _ => 900000, 0⟩ =
      [EncapsulationLayer.vlan 1] ∧
    ([] : List EncapsulationLayer) ≠ [EncapsulationLayer.vlan 1] := by
  refine ⟨?_, ?_, by decide⟩
  · norm_num [ChooseEncaps, chooseEncapsLoop, randomDouble, Rng.next, unitFrac]
  · rw [claimChooseEncaps, specChooseFirstCovering_eq_loop]
    norm_num [chooseEncapsLoop, randomDouble, Rng.next, unitFrac,
      sumVariantProb]

/-- Claim C9, amended: the draw is a uniform real in `[0, 1]` (the default
RandomDouble range); the first variant whose cumulative probability covers
it is selected, and no layers result either from an empty variant list or
from a draw beyond the total probability (possible when the probabilities
sum to less than 1).  With probabilities `[0.3, 0.7]` and a draw of 0.5
the second variant is chosen. -/
theorem C9_amended :
    (∀ (variants : List EncapsulationVariant) (g : Rng),
      (ChooseEncaps variants g).1 =
        specChooseFirstCovering variants (randomDouble g 0 1).1) ∧
    (ChooseEncaps [⟨3 / 10, [.vlan 1]⟩, ⟨7 / 10, [.vlan 2]⟩]
        ⟨fun _ => 500000, 0⟩).1 = [EncapsulationLayer.vlan 2] ∧
    (ChooseEncaps [] ⟨fun _ => 123, 5⟩).1 = [] := by
  refine ⟨?_, ?_, rfl⟩
  · intro variants g
    cases variants with
    | nil => simp [ChooseEncaps, specChooseFirstCovering]
    | cons v rest =>
      rw [specChooseFirstCovering_eq_loop]
      simp [ChooseEncaps, randomDouble, Rng.next]
  · norm_num [ChooseEncaps, chooseEncapsLoop, randomDouble, Rng.next,
      unitFrac]
